import Mathlib

/-!
Verification of the hash-file core: the streaming digest engine
(`Hasher.hash_file`), the duplicate detector (`Hasher.find_duplicates`) and
the verifier (`Verifier.verify_file`), shallowly embedded from
`src/hasher.rs` and `src/verifier.rs`.

Modelling decisions:
* A byte is a `Nat`; the hex encoder reduces it modulo 256 exactly as the
  `u8` representation does.
* The file system is a total map from path strings to a `FileSource`:
  readable content, an open failure, or a read failure that strikes after a
  prefix of the content has been delivered.
* The external digest crates (`md5`, `sha1`, `sha2`, `blake3`) are modelled
  by the structure `DigestCrates`: a pure digest function per algorithm over
  the absorbed byte stream, with the crates' guaranteed fixed output size
  (16/20/32/64/32 bytes) and byte range (below 256).  The repository's own
  code — the 8192-byte read loop, the per-algorithm dispatch, hex rendering,
  grouping, trimming and case-insensitive comparison — is embedded
  concretely.
* `rayon`'s `par_iter().filter_map().collect()` on a slice is an indexed
  parallel iterator whose `collect` preserves input order, so the duplicate
  detector is embedded as the order-preserving sequential `filterMap`.
-/

/-- The algorithm selector of `src/hasher.rs` (`enum HashAlgorithm`). -/
inductive HashAlgorithm : Type
  | Md5
  | Sha1
  | Sha256
  | Sha512
  | Blake3
deriving DecidableEq, Repr

/-- Output size in bytes of each algorithm's finalized digest, as produced
by the external crates (MD5 16, SHA-1 20, SHA-256 32, SHA-512 64,
BLAKE3 32). -/
def rawDigestLen : HashAlgorithm → Nat
  | .Md5 => 16
  | .Sha1 => 20
  | .Sha256 => 32
  | .Sha512 => 64
  | .Blake3 => 32

/-- Width of the hex rendering of a digest: two characters per byte. -/
def hexWidth : HashAlgorithm → Nat
  | .Md5 => 32
  | .Sha1 => 40
  | .Sha256 => 64
  | .Sha512 => 128
  | .Blake3 => 64

/-- The lowercase hex digit for a nibble value (`hex` crate alphabet). -/
def hexDigitChar (n : Nat) : Char :=
  if n < 10 then Char.ofNat (48 + n) else Char.ofNat (87 + n)

/-- The two lowercase hex characters of one byte (reduced modulo 256, as a
`u8` is). -/
def byteHexChars (b : Nat) : List Char :=
  [hexDigitChar (b % 256 / 16), hexDigitChar (b % 16)]

/-- Hex characters of a byte sequence, in order. -/
def hexChars : List Nat → List Char
  | [] => []
  | b :: bs => byteHexChars b ++ hexChars bs

/-- Model of `hex::encode`: lowercase hexadecimal rendering of a byte
sequence. -/
def hexEncode (bs : List Nat) : String :=
  String.mk (hexChars bs)

/-- Model of BLAKE3's `finalize().to_hex().to_string()`: the crate's native
hex rendering uses the same lowercase alphabet, two characters per byte. -/
def blake3ToHex (bs : List Nat) : String :=
  String.mk (hexChars bs)

/-- The sixteen lowercase hexadecimal digits, digits before letters. -/
def hexAlphabet : List Char :=
  (List.range 16).map hexDigitChar

/-- A character is a lowercase hexadecimal digit. -/
def IsLowerHexDigit (c : Char) : Prop :=
  c ∈ hexAlphabet

instance (c : Char) : Decidable (IsLowerHexDigit c) := by
  unfold IsLowerHexDigit; infer_instance

/-- The I/O failures of the digest engine: the file cannot be opened (the
`File::open … .context("Failed to open file")` path) or a read fails
mid-stream (the `reader.read(&mut buffer)?` path). -/
inductive IOError : Type
  | openFailed
  | readFailed
deriving DecidableEq, Repr

deriving instance DecidableEq for Except

/-- What a path resolves to: readable content, an open failure, or a read
failure that strikes after a prefix of the bytes has been delivered. -/
inductive FileSource : Type
  | readable (content : List Nat)
  | openError
  | readErrorAfter (priorBytes : List Nat)
deriving DecidableEq

/-- The file system: a total map from path strings to byte sources. -/
def FS : Type := String → FileSource

/-- The successive reads of the 8192-byte buffer loop: each read returns
`min 8192 remaining` bytes until the stream is exhausted. -/
def chunksOf : Nat → List Nat → List (List Nat)
  | _, [] => []
  | 0, _ :: _ => []
  | n + 1, b :: bs => (b :: bs.take n) :: chunksOf (n + 1) (bs.drop n)
termination_by n bs => bs.length
decreasing_by
  simp [List.length_drop]
  omega

/-- Concatenation of a chunk list. -/
def listJoin : List (List Nat) → List Nat
  | [] => []
  | c :: cs => c ++ listJoin cs

/-- The accumulator state after the read loop: `new()` starts from the empty
absorbed stream and each `update(&buffer[..n])` appends the chunk just
read. -/
def absorbChunks (chunks : List (List Nat)) : List Nat :=
  chunks.foldl (fun st c => st ++ c) []

/-- Model of the external digest crates: for each algorithm, `digest a bs`
is the finalized digest of the absorbed byte stream `bs`.  The crates
guarantee a fixed output size per algorithm and that every output value is a
byte. -/
structure DigestCrates : Type where
  digest : HashAlgorithm → List Nat → List Nat
  digest_length : ∀ a bs, (digest a bs).length = rawDigestLen a
  digest_lt : ∀ a bs, ∀ b ∈ digest a bs, b < 256

/-- `struct Hasher` of `src/hasher.rs`. -/
structure Hasher : Type where
  algorithm : HashAlgorithm

/-- `Hasher::new`. -/
def Hasher.new (algorithm : HashAlgorithm) : Hasher :=
  ⟨algorithm⟩

/-- `Hasher::hash_file`: open the source, read it in 8192-byte chunks
feeding the selected algorithm's accumulator, finalize and render as
lowercase hex.  An open failure or a mid-stream read failure propagates as
an error and no partial digest is returned. -/
def Hasher.hash_file (C : DigestCrates) (h : Hasher) (fs : FS) (path : String) :
    Except IOError String :=
  match fs path with
  | .openError => .error .openFailed
  | .readErrorAfter _ => .error .readFailed
  | .readable content =>
    match h.algorithm with
    | .Md5 =>
      .ok (hexEncode (C.digest .Md5 (absorbChunks (chunksOf 8192 content))))
    | .Sha1 =>
      .ok (hexEncode (C.digest .Sha1 (absorbChunks (chunksOf 8192 content))))
    | .Sha256 =>
      .ok (hexEncode (C.digest .Sha256 (absorbChunks (chunksOf 8192 content))))
    | .Sha512 =>
      .ok (hexEncode (C.digest .Sha512 (absorbChunks (chunksOf 8192 content))))
    | .Blake3 =>
      .ok (blake3ToHex (C.digest .Blake3 (absorbChunks (chunksOf 8192 content))))

/-- One step of `map.entry(hash).or_insert_with(Vec::new).push(path)` on the
association-list model of the `HashMap`: append the path to the entry of
`hash`, creating the entry if absent. -/
def insertPath (m : List (String × List String)) (hash : String) (p : String) :
    List (String × List String) :=
  match m with
  | [] => [(hash, [p])]
  | (k, v) :: rest =>
    if k = hash then (k, v ++ [p]) :: rest else (k, v) :: insertPath rest hash p

/-- `Hasher::find_duplicates`: hash every path, dropping the ones that fail
(`.ok()` + `filter_map`), group the `(hash, path)` pairs, and keep only the
groups with more than one member.  The whole operation always returns
`Ok`. -/
def Hasher.find_duplicates (C : DigestCrates) (h : Hasher) (fs : FS)
    (paths : List String) : Except IOError (List (String × List String)) :=
  let results := paths.filterMap fun p =>
    match h.hash_file C fs p with
    | .ok hash => some (hash, p)
    | .error _ => none
  let map := results.foldl (fun m r => insertPath m r.1 r.2) []
  .ok (map.filter fun e => 1 < e.2.length)

/-- The paths of the input list, in input order, whose digest computation
succeeds with digest `d`. -/
def groupOf (C : DigestCrates) (h : Hasher) (fs : FS) (paths : List String)
    (d : String) : List String :=
  paths.filterMap fun p =>
    match h.hash_file C fs p with
    | .ok hash => if hash = d then some p else none
    | .error _ => none

/-- Whether hashing a path succeeds. -/
def hashOk (C : DigestCrates) (h : Hasher) (fs : FS) (p : String) : Bool :=
  match h.hash_file C fs p with
  | .ok _ => true
  | .error _ => false

/-- ASCII lowercase folding of one character, as `eq_ignore_ascii_case`
folds each byte. -/
def asciiLower (c : Char) : Char :=
  if 'A' ≤ c ∧ c ≤ 'Z' then Char.ofNat (c.toNat + 32) else c

/-- ASCII uppercase of one character (used to state the upper-case
verification property). -/
def asciiUpper (c : Char) : Char :=
  if 'a' ≤ c ∧ c ≤ 'z' then Char.ofNat (c.toNat - 32) else c

/-- ASCII uppercase of a string. -/
def strUpper (s : String) : String :=
  String.mk (s.data.map asciiUpper)

/-- Model of `str::trim`: drop whitespace from both ends. -/
def trimChars (cs : List Char) : List Char :=
  ((cs.dropWhile Char.isWhitespace).reverse.dropWhile Char.isWhitespace).reverse

/-- `str::trim` on strings. -/
def strTrim (s : String) : String :=
  String.mk (trimChars s.data)

/-- Model of `str::eq_ignore_ascii_case`: the two strings agree after ASCII
case folding. -/
def eqIgnoreAsciiCase (a b : String) : Bool :=
  decide (a.data.map asciiLower = b.data.map asciiLower)

/-- `struct Verifier` of `src/verifier.rs`. -/
structure Verifier : Type where
  hasher : Hasher

/-- `Verifier::new`. -/
def Verifier.new (hasher : Hasher) : Verifier :=
  ⟨hasher⟩

/-- `Verifier::verify_file`: compute the digest, propagating its error,
then compare it, ignoring ASCII case, with the trimmed expected text. -/
def Verifier.verify_file (C : DigestCrates) (v : Verifier) (fs : FS)
    (path : String) (expected : String) : Except IOError Bool :=
  match v.hasher.hash_file C fs path with
  | .error e => .error e
  | .ok calculated => .ok (eqIgnoreAsciiCase calculated (strTrim expected))

/-- The digest of the whole byte content in one pass, as the specification
describes it: finalize the algorithm's digest of the full concatenated
content and render it as lowercase hex.  Used as the reference point of the
chunking refinement. -/
def computeDigestSpec (C : DigestCrates) (a : HashAlgorithm)
    (content : List Nat) : String :=
  hexEncode (C.digest a content)

/-- A concrete `DigestCrates` instance used to evaluate the theorems on
explicit inputs: the digest of a stream is its byte-reduced content padded
with zeros and truncated to the algorithm's output size. -/
def truncDigest : DigestCrates where
  digest a bs := (bs.map (· % 256) ++ List.replicate (rawDigestLen a) 0).take (rawDigestLen a)
  digest_length a bs := by
    simp [List.length_take, List.length_append, List.length_replicate]
  digest_lt a bs := by
    intro b hb
    have hb' := List.mem_of_mem_take hb
    rcases List.mem_append.mp hb' with h | h
    · rcases List.mem_map.mp h with ⟨x, _, rfl⟩
      exact Nat.mod_lt _ (by omega)
    · have := List.eq_of_mem_replicate h
      omega

/-- The `(hash, path)` pairs collected by `find_duplicates` before grouping:
one pair per path whose digest computation succeeds, in input order. -/
def hashResults (C : DigestCrates) (h : Hasher) (fs : FS) (paths : List String) :
    List (String × String) :=
  paths.filterMap fun p =>
    match h.hash_file C fs p with
    | .ok hash => some (hash, p)
    | .error _ => none

/-- The grouping fold of `find_duplicates` over collected pairs. -/
def groupFold (rs : List (String × String)) : List (String × List String) :=
  rs.foldl (fun m r => insertPath m r.1 r.2) []

/-- First-match lookup in the association-list model of the `HashMap`. -/
def lookupVal : List (String × List String) → String → Option (List String)
  | [], _ => none
  | (k, v) :: rest, d => if k = d then some v else lookupVal rest d

/-- The paths paired with hash `d` among collected pairs, in order. -/
def valsFor (rs : List (String × String)) (d : String) : List String :=
  rs.filterMap fun r => if r.1 = d then some r.2 else none

/-- The keys of the association list. -/
def keysOf (m : List (String × List String)) : List String :=
  m.map Prod.fst

/-- A small file system used to evaluate the theorems on concrete inputs:
two paths with equal content, one with different content, everything else
failing to open. -/
def sampleFS : FS := fun p =>
  if p = "a" then .readable [1]
  else if p = "b" then .readable [1]
  else if p = "c" then .readable [2]
  else .openError

/-! ### Lemmas on hex rendering -/

theorem hexChars_length : ∀ bs : List Nat, (hexChars bs).length = 2 * bs.length
  | [] => rfl
  | b :: bs => by
    simp [hexChars, byteHexChars, hexChars_length bs]
    omega

theorem hexDigitChar_mem (n : Nat) (hn : n < 16) : hexDigitChar n ∈ hexAlphabet :=
  List.mem_map.mpr ⟨n, List.mem_range.mpr hn, rfl⟩

theorem hexChars_mem (bs : List Nat) : ∀ c ∈ hexChars bs, IsLowerHexDigit c := by
  induction bs with
  | nil => simp [hexChars]
  | cons b bs ih =>
    intro c hc
    rcases List.mem_append.mp hc with h | h
    · have h16 : b % 256 / 16 < 16 := by omega
      have h16' : b % 16 < 16 := by omega
      simp [byteHexChars] at h
      rcases h with rfl | rfl
      · exact hexDigitChar_mem _ h16
      · exact hexDigitChar_mem _ h16'
    · exact ih c h

theorem hexEncode_length (bs : List Nat) : (hexEncode bs).length = 2 * bs.length := by
  simp [hexEncode, String.length, hexChars_length]

theorem hexEncode_mem (bs : List Nat) :
    ∀ c ∈ (hexEncode bs).data, IsLowerHexDigit c := by
  simpa [hexEncode] using hexChars_mem bs

theorem hexWidth_eq (a : HashAlgorithm) : hexWidth a = 2 * rawDigestLen a := by
  cases a <;> rfl

/-! ### Lemmas on the chunked read loop -/

theorem chunksOf_join (n : Nat) (bs : List Nat) :
    listJoin (chunksOf (n + 1) bs) = bs := by
  match bs with
  | [] => simp [chunksOf, listJoin]
  | b :: bs' =>
    rw [chunksOf, listJoin, chunksOf_join n (bs'.drop n)]
    simp
termination_by bs.length
decreasing_by simp [List.length_drop]; omega

theorem chunksOf_mem (n : Nat) (bs : List Nat) :
    ∀ c ∈ chunksOf (n + 1) bs, c.length ≤ n + 1 ∧ c ≠ [] := by
  match bs with
  | [] => simp [chunksOf]
  | b :: bs' =>
    intro c hc
    rw [chunksOf] at hc
    rcases List.mem_cons.mp hc with rfl | h
    · refine ⟨?_, by simp⟩
      simp only [List.length_cons, List.length_take]
      omega
    · exact chunksOf_mem n (bs'.drop n) c h
termination_by bs.length
decreasing_by simp [List.length_drop]; omega

theorem foldl_append_eq (cs : List (List Nat)) :
    ∀ acc, cs.foldl (fun st c => st ++ c) acc = acc ++ listJoin cs := by
  induction cs with
  | nil => intro acc; simp [listJoin]
  | cons c cs ih => intro acc; simp [listJoin, ih, List.append_assoc]

theorem absorbChunks_eq_join (cs : List (List Nat)) : absorbChunks cs = listJoin cs := by
  simp [absorbChunks, foldl_append_eq]

theorem chunks8192_join (bs : List Nat) : listJoin (chunksOf 8192 bs) = bs := by
  have h := chunksOf_join 8191 bs
  norm_num at h
  exact h

theorem absorb_chunks8192 (bs : List Nat) : absorbChunks (chunksOf 8192 bs) = bs := by
  rw [absorbChunks_eq_join, chunks8192_join]

/-! ### Unfolding lemmas for the engine -/

theorem hash_file_readable (C : DigestCrates) (h : Hasher) (fs : FS)
    (path : String) (content : List Nat) (hr : fs path = .readable content) :
    h.hash_file C fs path = .ok (hexEncode (C.digest h.algorithm content)) := by
  cases halg : h.algorithm <;>
    simp [Hasher.hash_file, hr, halg, blake3ToHex, hexEncode, absorb_chunks8192]

theorem hash_file_openError (C : DigestCrates) (h : Hasher) (fs : FS)
    (path : String) (hr : fs path = .openError) :
    h.hash_file C fs path = .error .openFailed := by
  simp [Hasher.hash_file, hr]

theorem hash_file_readError (C : DigestCrates) (h : Hasher) (fs : FS)
    (path : String) (priorBytes : List Nat)
    (hr : fs path = .readErrorAfter priorBytes) :
    h.hash_file C fs path = .error .readFailed := by
  simp [Hasher.hash_file, hr]

/-! ### Lemmas on the grouping structure -/

theorem lookupVal_insertPath (m : List (String × List String)) (hk p d : String) :
    lookupVal (insertPath m hk p) d =
      if d = hk then some (((lookupVal m hk).getD []) ++ [p]) else lookupVal m d := by
  induction m with
  | nil =>
    by_cases hdh : d = hk
    · subst hdh; simp [insertPath, lookupVal]
    · simp [insertPath, lookupVal, hdh, Ne.symm hdh]
  | cons kv rest ih =>
    obtain ⟨k, v⟩ := kv
    by_cases hkh : k = hk
    · subst hkh
      by_cases hdk : d = k
      · subst hdk; simp [insertPath, lookupVal]
      · simp [insertPath, lookupVal, hdk, Ne.symm hdk]
    · by_cases hdk : d = k
      · subst hdk
        simp [insertPath, lookupVal, hkh, Ne.symm hkh]
      · simp [insertPath, lookupVal, hkh, hdk, Ne.symm hdk, ih]

theorem valsFor_cons (hk p : String) (rs : List (String × String)) (d : String) :
    valsFor ((hk, p) :: rs) d =
      if hk = d then p :: valsFor rs d else valsFor rs d := by
  by_cases hkd : hk = d <;> simp [valsFor, List.filterMap_cons, hkd]

theorem lookupVal_foldl (rs : List (String × String)) :
    ∀ (m : List (String × List String)) (d : String),
      lookupVal (rs.foldl (fun m r => insertPath m r.1 r.2) m) d =
        match lookupVal m d with
        | some v0 => some (v0 ++ valsFor rs d)
        | none => if valsFor rs d = [] then none else some (valsFor rs d) := by
  induction rs with
  | nil =>
    intro m d
    cases h : lookupVal m d <;> simp [valsFor, h]
  | cons r rs ih =>
    intro m d
    obtain ⟨hk, p⟩ := r
    simp only [List.foldl_cons]
    rw [ih, lookupVal_insertPath, valsFor_cons]
    by_cases hdh : d = hk
    · subst hdh
      simp only [if_pos rfl]
      cases h : lookupVal m d <;> simp [h, List.append_assoc]
    · have hne : ¬hk = d := fun hh => hdh hh.symm
      rw [if_neg hdh]
      simp only [if_neg hne]

theorem lookupVal_groupFold (rs : List (String × String)) (d : String) :
    lookupVal (groupFold rs) d =
      if valsFor rs d = [] then none else some (valsFor rs d) := by
  have h := lookupVal_foldl rs [] d
  simpa [groupFold, lookupVal] using h

theorem keysOf_insertPath (m : List (String × List String)) (hk p : String) :
    keysOf (insertPath m hk p) =
      if hk ∈ keysOf m then keysOf m else keysOf m ++ [hk] := by
  induction m with
  | nil => simp [insertPath, keysOf]
  | cons kv rest ih =>
    obtain ⟨k, v⟩ := kv
    by_cases hkh : k = hk
    · subst hkh; simp [insertPath, keysOf]
    · by_cases hmem : hk ∈ keysOf rest
      · simp [insertPath, keysOf, hkh, Ne.symm hkh, hmem, ih, keysOf] at *
        simp [hmem, ih]
      · simp only [insertPath, if_neg hkh, keysOf, List.map_cons] at *
        simp [ih, hmem, Ne.symm hkh]

theorem nodup_insertPath (m : List (String × List String)) (hk p : String)
    (hm : (keysOf m).Nodup) : (keysOf (insertPath m hk p)).Nodup := by
  by_cases hmem : hk ∈ keysOf m
  · simpa [keysOf_insertPath, hmem] using hm
  · rw [keysOf_insertPath, if_neg hmem]
    simp [List.nodup_append, hm, hmem]

theorem nodup_foldl_insertPath (rs : List (String × String)) :
    ∀ (m : List (String × List String)), (keysOf m).Nodup →
      (keysOf (rs.foldl (fun m r => insertPath m r.1 r.2) m)).Nodup := by
  induction rs with
  | nil => intro m hm; exact hm
  | cons r rs ih =>
    intro m hm
    exact ih _ (nodup_insertPath m r.1 r.2 hm)

theorem nodup_groupFold (rs : List (String × String)) :
    (keysOf (groupFold rs)).Nodup := by
  exact nodup_foldl_insertPath rs [] (by simp [keysOf])

theorem mem_iff_lookupVal (m : List (String × List String))
    (hnd : (keysOf m).Nodup) (d : String) (l : List String) :
    (d, l) ∈ m ↔ lookupVal m d = some l := by
  induction m with
  | nil => simp [lookupVal]
  | cons kv rest ih =>
    obtain ⟨k, v⟩ := kv
    simp only [keysOf, List.map_cons, List.nodup_cons] at hnd
    by_cases hdk : k = d
    · subst hdk
      simp only [lookupVal, if_pos rfl, List.mem_cons]
      constructor
      · rintro (heq | hmem)
        · obtain ⟨rfl, rfl⟩ := Prod.mk.injEq .. ▸ And.intro (congrArg Prod.fst heq) (congrArg Prod.snd heq)
          rfl
        · exact absurd (List.mem_map.mpr ⟨(k, l), hmem, rfl⟩) hnd.1
      · rintro heq
        left
        exact congrArg (Prod.mk k) (Option.some.injEq .. ▸ heq).symm ▸ rfl
    · simp only [lookupVal, if_neg hdk, List.mem_cons]
      rw [← ih hnd.2]
      constructor
      · rintro (heq | hmem)
        · exact absurd (congrArg Prod.fst heq).symm hdk
        · exact hmem
      · intro hmem; right; exact hmem

/-! ### Characterization of `find_duplicates` -/

theorem valsFor_hashResults (C : DigestCrates) (h : Hasher) (fs : FS)
    (paths : List String) (d : String) :
    valsFor (hashResults C h fs paths) d = groupOf C h fs paths d := by
  induction paths with
  | nil => simp [hashResults, valsFor, groupOf]
  | cons p ps ih =>
    cases hh : h.hash_file C fs p with
    | error e =>
      simp only [hashResults, groupOf, List.filterMap_cons, hh] at ih ⊢
      exact ih
    | ok dp =>
      simp only [hashResults, groupOf, List.filterMap_cons, hh] at ih ⊢
      rw [valsFor_cons, ih]
      by_cases hdp : dp = d <;> simp [hdp]

theorem find_duplicates_eq (C : DigestCrates) (h : Hasher) (fs : FS)
    (paths : List String) :
    h.find_duplicates C fs paths =
      .ok ((groupFold (hashResults C h fs paths)).filter fun e => 1 < e.2.length) :=
  rfl

theorem mem_find_duplicates (C : DigestCrates) (h : Hasher) (fs : FS)
    (paths : List String) (m : List (String × List String))
    (hm : h.find_duplicates C fs paths = .ok m) (d : String) (l : List String) :
    (d, l) ∈ m ↔ l = groupOf C h fs paths d ∧ 2 ≤ l.length := by
  rw [find_duplicates_eq] at hm
  obtain rfl := Except.ok.inj hm
  rw [List.mem_filter]
  constructor
  · rintro ⟨hmem, hlen⟩
    have hlook := (mem_iff_lookupVal _ (nodup_groupFold _) d l).mp hmem
    rw [lookupVal_groupFold] at hlook
    by_cases hv : valsFor (hashResults C h fs paths) d = []
    · simp [hv] at hlook
    · rw [if_neg hv] at hlook
      obtain rfl := Option.some.inj hlook.symm
      exact ⟨valsFor_hashResults C h fs paths d, by simpa using hlen⟩
  · rintro ⟨rfl, hlen⟩
    have hne : valsFor (hashResults C h fs paths) d ≠ [] := by
      rw [valsFor_hashResults]
      intro hnil
      rw [hnil] at hlen
      simp at hlen
    constructor
    · apply (mem_iff_lookupVal _ (nodup_groupFold _) d _).mpr
      rw [lookupVal_groupFold, if_neg hne, valsFor_hashResults]
    · simp only [decide_eq_true_eq]
      omega

theorem mem_groupOf (C : DigestCrates) (h : Hasher) (fs : FS)
    (paths : List String) (d q : String) :
    q ∈ groupOf C h fs paths d ↔ q ∈ paths ∧ h.hash_file C fs q = .ok d := by
  constructor
  · intro hq
    obtain ⟨q', hq', hfq⟩ := List.mem_filterMap.mp hq
    cases hh : h.hash_file C fs q' with
    | error e => simp [hh] at hfq
    | ok dq =>
      simp only [hh] at hfq
      by_cases hd : dq = d
      · rw [if_pos hd] at hfq
        obtain rfl := Option.some.inj hfq
        subst hd
        exact ⟨hq', hh⟩
      · rw [if_neg hd] at hfq
        cases hfq
  · rintro ⟨hq, hh⟩
    exact List.mem_filterMap.mpr ⟨q, hq, by rw [hh]; simp⟩

theorem groupOf_cons_error (C : DigestCrates) (h : Hasher) (fs : FS)
    (q : String) (ps : List String) (d : String) (e : IOError)
    (hq : h.hash_file C fs q = .error e) :
    groupOf C h fs (q :: ps) d = groupOf C h fs ps d := by
  simp [groupOf, List.filterMap_cons, hq]

theorem groupOf_cons_ok_eq (C : DigestCrates) (h : Hasher) (fs : FS)
    (q : String) (ps : List String) (d : String)
    (hq : h.hash_file C fs q = .ok d) :
    groupOf C h fs (q :: ps) d = q :: groupOf C h fs ps d := by
  simp [groupOf, List.filterMap_cons, hq]

theorem groupOf_cons_ok_ne (C : DigestCrates) (h : Hasher) (fs : FS)
    (q : String) (ps : List String) (d dq : String)
    (hq : h.hash_file C fs q = .ok dq) (hne : dq ≠ d) :
    groupOf C h fs (q :: ps) d = groupOf C h fs ps d := by
  simp [groupOf, List.filterMap_cons, hq, hne]

theorem count_groupOf (C : DigestCrates) (h : Hasher) (fs : FS)
    (paths : List String) (p d : String) (hp : h.hash_file C fs p = .ok d) :
    (groupOf C h fs paths d).count p = paths.count p := by
  induction paths with
  | nil => rfl
  | cons q ps ih =>
    cases hq : h.hash_file C fs q with
    | error e =>
      have hqp : ¬p = q := by
        intro hqp
        rw [← hqp, hp] at hq
        cases hq
      rw [groupOf_cons_error C h fs q ps d e hq, List.count_cons, ih]
      have hbeq : (q == p) = false := beq_eq_false_iff_ne.mpr fun hh => hqp hh.symm
      simp [hbeq]
    | ok dq =>
      by_cases hdq : dq = d
      · subst hdq
        rw [groupOf_cons_ok_eq C h fs q ps dq hq, List.count_cons, List.count_cons, ih]
      · have hqp : ¬p = q := by
          intro hqp
          rw [← hqp, hp] at hq
          exact hdq (Except.ok.inj hq).symm
        rw [groupOf_cons_ok_ne C h fs q ps d dq hq hdq, List.count_cons, ih]
        have hbeq : (q == p) = false := beq_eq_false_iff_ne.mpr fun hh => hqp hh.symm
        simp [hbeq]

theorem groupOf_length_le_one (C : DigestCrates) (h : Hasher) (fs : FS)
    (paths : List String)
    (hpw : paths.Pairwise (fun p q => h.hash_file C fs p ≠ h.hash_file C fs q))
    (d : String) : (groupOf C h fs paths d).length ≤ 1 := by
  induction paths with
  | nil => simp [groupOf]
  | cons p ps ih =>
    rw [List.pairwise_cons] at hpw
    obtain ⟨hp, hps⟩ := hpw
    cases hh : h.hash_file C fs p with
    | error e =>
      rw [groupOf_cons_error C h fs p ps d e hh]
      exact ih hps
    | ok dp =>
      by_cases hdp : dp = d
      · subst hdp
        have hnil : groupOf C h fs ps dp = [] := by
          rw [List.eq_nil_iff_forall_not_mem]
          intro q hq
          obtain ⟨hqps, hhq⟩ := (mem_groupOf C h fs ps dp q).mp hq
          exact hp q hqps (hh.trans hhq.symm)
        rw [groupOf_cons_ok_eq C h fs p ps dp hh, hnil]
        simp
      · rw [groupOf_cons_ok_ne C h fs p ps d dp hh hdp]
        exact ih hps

theorem filterMap_filter_eq {α β : Type} (g : α → Bool) (F : α → Option β)
    (hg : ∀ a, g a = false → F a = none) (l : List α) :
    (l.filter g).filterMap F = l.filterMap F := by
  induction l with
  | nil => rfl
  | cons a l ih =>
    cases hga : g a
    · rw [List.filter_cons_of_neg (by simp [hga]), List.filterMap_cons, hg a hga, ih]
    · rw [List.filter_cons_of_pos (by simp [hga]), List.filterMap_cons, List.filterMap_cons, ih]

theorem hashResults_filter_ok (C : DigestCrates) (h : Hasher) (fs : FS)
    (paths : List String) :
    hashResults C h fs (paths.filter (hashOk C h fs)) = hashResults C h fs paths := by
  apply filterMap_filter_eq
  intro p hfalse
  cases hh : h.hash_file C fs p with
  | error e => simp [hh]
  | ok dp => simp [hashOk, hh] at hfalse

theorem find_duplicates_filter (C : DigestCrates) (h : Hasher) (fs : FS)
    (paths : List String) :
    h.find_duplicates C fs (paths.filter (hashOk C h fs)) =
      h.find_duplicates C fs paths := by
  rw [find_duplicates_eq, find_duplicates_eq, hashResults_filter_ok]

/-! ### Lemmas on case folding and trimming -/

theorem asciiLower_of_hex (c : Char) (hc : c ∈ hexAlphabet) : asciiLower c = c :=
  (by decide : ∀ x ∈ hexAlphabet, asciiLower x = x) c hc

theorem asciiLower_asciiUpper_of_hex (c : Char) (hc : c ∈ hexAlphabet) :
    asciiLower (asciiUpper c) = c :=
  (by decide : ∀ x ∈ hexAlphabet, asciiLower (asciiUpper x) = x) c hc

theorem not_whitespace_of_hex (c : Char) (hc : c ∈ hexAlphabet) :
    c.isWhitespace = false :=
  (by decide : ∀ x ∈ hexAlphabet, x.isWhitespace = false) c hc

theorem not_whitespace_upper_of_hex (c : Char) (hc : c ∈ hexAlphabet) :
    (asciiUpper c).isWhitespace = false :=
  (by decide : ∀ x ∈ hexAlphabet, (asciiUpper x).isWhitespace = false) c hc

theorem dropWhile_eq_self_of_not (cs : List Char)
    (h : ∀ c ∈ cs, c.isWhitespace = false) :
    cs.dropWhile Char.isWhitespace = cs := by
  cases cs with
  | nil => rfl
  | cons c cs =>
    rw [List.dropWhile_cons, h c (List.mem_cons_self c cs)]
    simp

theorem trimChars_eq_self (cs : List Char)
    (h : ∀ c ∈ cs, c.isWhitespace = false) : trimChars cs = cs := by
  unfold trimChars
  rw [dropWhile_eq_self_of_not cs h]
  rw [dropWhile_eq_self_of_not cs.reverse fun c hc => h c (List.mem_reverse.mp hc)]
  exact List.reverse_reverse cs

theorem trimChars_spaces (cs : List Char)
    (h : ∀ c ∈ cs, c.isWhitespace = false) (hne : cs ≠ []) :
    trimChars ([' ', ' '] ++ cs ++ [' ', ' ']) = cs := by
  obtain ⟨c0, cs', rfl⟩ : ∃ c0 cs', cs = c0 :: cs' := by
    cases cs with
    | nil => exact absurd rfl hne
    | cons c0 cs' => exact ⟨c0, cs', rfl⟩
  unfold trimChars
  have hsp : (' ' : Char).isWhitespace = true := by decide
  have h0 : c0.isWhitespace = false := h c0 (List.mem_cons_self c0 cs')
  rw [show ([' ', ' '] ++ (c0 :: cs') ++ [' ', ' '] : List Char) =
      ' ' :: ' ' :: (c0 :: (cs' ++ [' ', ' '])) from by simp]
  rw [List.dropWhile_cons, hsp]
  simp only [if_true]
  rw [List.dropWhile_cons, hsp]
  simp only [if_true]
  rw [List.dropWhile_cons, h0]
  simp only [Bool.false_eq_true, if_false]
  rw [show (c0 :: (cs' ++ [' ', ' '])).reverse = ' ' :: ' ' :: (c0 :: cs').reverse from by simp]
  rw [List.dropWhile_cons, hsp]
  simp only [if_true]
  rw [List.dropWhile_cons, hsp]
  simp only [if_true]
  rw [dropWhile_eq_self_of_not (c0 :: cs').reverse
      fun c hc => h c (List.mem_reverse.mp hc)]
  exact List.reverse_reverse _

theorem map_asciiLower_of_hex (l : List Char) (hl : ∀ c ∈ l, IsLowerHexDigit c) :
    l.map asciiLower = l := by
  induction l with
  | nil => rfl
  | cons c l ih =>
    rw [List.map_cons, asciiLower_of_hex c (hl c (List.mem_cons_self c l)),
      ih fun x hx => hl x (List.mem_cons_of_mem c hx)]

theorem set_eq_self_get (l : List Char) :
    ∀ (i : Nat) (c' : Char) (hi : i < l.length), l.set i c' = l → c' = l.get ⟨i, hi⟩ := by
  induction l with
  | nil => intro i c' hi; simp at hi
  | cons a l ih =>
    intro i c' hi heq
    cases i with
    | zero =>
      simp only [List.set] at heq
      exact (List.cons.injEq .. ▸ heq).1
    | succ n =>
      simp only [List.set, List.cons.injEq] at heq
      have hn : n < l.length := by simpa using hi
      exact ih n c' hn heq.2

theorem map_lower_upper_of_hex (l : List Char) (hl : ∀ c ∈ l, IsLowerHexDigit c) :
    (l.map asciiUpper).map asciiLower = l := by
  induction l with
  | nil => rfl
  | cons c l ih =>
    rw [List.map_cons, List.map_cons,
      asciiLower_asciiUpper_of_hex c (hl c (List.mem_cons_self c l)),
      ih fun x hx => hl x (List.mem_cons_of_mem c hx)]

theorem rawDigestLen_pos (a : HashAlgorithm) : 0 < rawDigestLen a := by
  cases a <;> norm_num [rawDigestLen]

theorem verify_file_readable (C : DigestCrates) (v : Verifier) (fs : FS)
    (path expected : String) (content : List Nat)
    (hr : fs path = .readable content) :
    v.verify_file C fs path expected =
      .ok (eqIgnoreAsciiCase (hexEncode (C.digest v.hasher.algorithm content))
        (strTrim expected)) := by
  unfold Verifier.verify_file
  rw [hash_file_readable C v.hasher fs path content hr]

/-! ### The claims -/

/-- C1: for every readable byte source and every supported algorithm,
`Hasher.hash_file` returns a string whose length is exactly the algorithm's
fixed width — 32 hex characters for MD5, 40 for SHA-1, 64 for SHA-256, 64
for BLAKE3, 128 for SHA-512 (`hexWidth`) — and every character of the
returned string is a lowercase hexadecimal digit. -/
theorem C1_digest_width_and_alphabet (C : DigestCrates) (h : Hasher) (fs : FS)
    (path s : String) (hok : h.hash_file C fs path = .ok s) :
    s.length = hexWidth h.algorithm ∧ ∀ c ∈ s.data, IsLowerHexDigit c := by
  cases hr : fs path with
  | readable content =>
    rw [hash_file_readable C h fs path content hr] at hok
    obtain rfl := Except.ok.inj hok
    refine ⟨?_, hexEncode_mem _⟩
    rw [hexEncode_length, C.digest_length, hexWidth_eq]
  | openError =>
    rw [hash_file_openError C h fs path hr] at hok
    cases hok
  | readErrorAfter pre =>
    rw [hash_file_readError C h fs path pre hr] at hok
    cases hok

theorem C1_digest_width_and_alphabet_witness :
    (Hasher.new .Sha256).hash_file truncDigest (fun _ => .readable [1]) "f" =
        .ok (hexEncode (truncDigest.digest .Sha256 [1])) ∧
    (hexEncode (truncDigest.digest .Sha256 [1])).length = hexWidth .Sha256 ∧
    ∀ c ∈ (hexEncode (truncDigest.digest .Sha256 [1])).data, IsLowerHexDigit c := by
  have hok : (Hasher.new .Sha256).hash_file truncDigest
      (fun _ => .readable [1]) "f" = .ok (hexEncode (truncDigest.digest .Sha256 [1])) :=
    hash_file_readable truncDigest (Hasher.new .Sha256) (fun _ => .readable [1]) "f" [1] rfl
  exact ⟨hok, C1_digest_width_and_alphabet truncDigest (Hasher.new .Sha256)
    (fun _ => .readable [1]) "f" _ hok⟩

/-- C6: a source that cannot be opened makes `Hasher.hash_file` fail with an
I/O error, and a source whose read fails mid-stream does too;
`Verifier.verify_file` on the same path fails with the very same error
instead of returning a boolean — neither operation swallows the error at its
own layer. -/
theorem C6_io_error_propagation (C : DigestCrates) (h : Hasher) (fs : FS)
    (path e : String) :
    (fs path = .openError →
      h.hash_file C fs path = .error .openFailed ∧
      (Verifier.new h).verify_file C fs path e = .error .openFailed) ∧
    (∀ priorBytes, fs path = .readErrorAfter priorBytes →
      h.hash_file C fs path = .error .readFailed ∧
      (Verifier.new h).verify_file C fs path e = .error .readFailed) ∧
    (∀ err, h.hash_file C fs path = .error err →
      (Verifier.new h).verify_file C fs path e = .error err) := by
  refine ⟨?_, ?_, ?_⟩
  · intro hr
    refine ⟨hash_file_openError C h fs path hr, ?_⟩
    unfold Verifier.verify_file
    rw [show (Verifier.new h).hasher = h from rfl, hash_file_openError C h fs path hr]
  · intro pre hr
    refine ⟨hash_file_readError C h fs path pre hr, ?_⟩
    unfold Verifier.verify_file
    rw [show (Verifier.new h).hasher = h from rfl, hash_file_readError C h fs path pre hr]
  · intro err herr
    unfold Verifier.verify_file
    rw [show (Verifier.new h).hasher = h from rfl, herr]

theorem C6_io_error_propagation_witness :
    ((fun _ => FileSource.openError) "f" = FileSource.openError) ∧
    (Hasher.new .Md5).hash_file truncDigest (fun _ => .openError) "f" =
        .error .openFailed ∧
    (Verifier.new (Hasher.new .Md5)).verify_file truncDigest
        (fun _ => .openError) "f" "x" = .error .openFailed :=
  ⟨rfl, (C6_io_error_propagation truncDigest (Hasher.new .Md5)
    (fun _ => .openError) "f" "x").1 rfl⟩

/-- C8: for every readable byte source, `Hasher.hash_file` consumes the
source in chunks of at most 8192 bytes, none of them empty, whose in-order
concatenation is exactly the source's content (no chunk skipped, reordered
or duplicated); the accumulator absorbs exactly that concatenation, and the
resulting digest equals the digest of the whole content in one pass
(`computeDigestSpec`). -/
theorem C8_chunked_refinement (C : DigestCrates) (h : Hasher) (fs : FS)
    (path : String) (content : List Nat) (hr : fs path = .readable content) :
    (∀ c ∈ chunksOf 8192 content, c.length ≤ 8192 ∧ c ≠ []) ∧
    listJoin (chunksOf 8192 content) = content ∧
    h.hash_file C fs path =
      .ok (hexEncode (C.digest h.algorithm (absorbChunks (chunksOf 8192 content)))) ∧
    h.hash_file C fs path = .ok (computeDigestSpec C h.algorithm content) := by
  refine ⟨?_, chunks8192_join content, ?_, ?_⟩
  · intro c hc
    have h8 : chunksOf 8192 content = chunksOf (8191 + 1) content := by norm_num
    rw [h8] at hc
    have hm := chunksOf_mem 8191 content c hc
    exact ⟨by have := hm.1; omega, hm.2⟩
  · rw [absorb_chunks8192]
    exact hash_file_readable C h fs path content hr
  · exact hash_file_readable C h fs path content hr

theorem C8_chunked_refinement_witness :
    ((fun _ => FileSource.readable [7, 7]) "f" = FileSource.readable [7, 7]) ∧
    listJoin (chunksOf 8192 [7, 7]) = [7, 7] ∧
    (Hasher.new .Blake3).hash_file truncDigest (fun _ => .readable [7, 7]) "f" =
      .ok (computeDigestSpec truncDigest .Blake3 [7, 7]) :=
  ⟨rfl,
    (C8_chunked_refinement truncDigest (Hasher.new .Blake3)
      (fun _ => .readable [7, 7]) "f" [7, 7] rfl).2.1,
    (C8_chunked_refinement truncDigest (Hasher.new .Blake3)
      (fun _ => .readable [7, 7]) "f" [7, 7] rfl).2.2.2⟩

/-- C9: on a readable empty source, `Hasher.hash_file` succeeds: the read
loop sees no chunk at all (`chunksOf 8192 [] = []`), the accumulator is
finalized on the empty absorbed stream, and the result is the algorithm's
digest of the empty byte string, with the algorithm's fixed width and
all-lowercase hex characters. -/
theorem C9_empty_source (C : DigestCrates) (h : Hasher) (fs : FS) (path : String)
    (hr : fs path = .readable []) :
    chunksOf 8192 [] = ([] : List (List Nat)) ∧
    h.hash_file C fs path = .ok (hexEncode (C.digest h.algorithm [])) ∧
    (hexEncode (C.digest h.algorithm [])).length = hexWidth h.algorithm ∧
    ∀ c ∈ (hexEncode (C.digest h.algorithm [])).data, IsLowerHexDigit c := by
  refine ⟨by simp [chunksOf], hash_file_readable C h fs path [] hr, ?_, hexEncode_mem _⟩
  rw [hexEncode_length, C.digest_length, hexWidth_eq]

theorem C9_empty_source_witness :
    ((fun _ => FileSource.readable []) "f" = FileSource.readable []) ∧
    (Hasher.new .Sha512).hash_file truncDigest (fun _ => .readable []) "f" =
        .ok (hexEncode (truncDigest.digest .Sha512 [])) ∧
    (hexEncode (truncDigest.digest .Sha512 [])).length = hexWidth .Sha512 :=
  ⟨rfl,
    (C9_empty_source truncDigest (Hasher.new .Sha512) (fun _ => .readable []) "f" rfl).2.1,
    (C9_empty_source truncDigest (Hasher.new .Sha512) (fun _ => .readable []) "f" rfl).2.2.1⟩

theorem strTrim_hexEncode (bs : List Nat) : strTrim (hexEncode bs) = hexEncode bs := by
  show String.mk (trimChars (hexChars bs)) = String.mk (hexChars bs)
  rw [trimChars_eq_self _ fun c hc => not_whitespace_of_hex c (hexChars_mem bs c hc)]

theorem eqIgnoreAsciiCase_self (s : String) : eqIgnoreAsciiCase s s = true := by
  simp [eqIgnoreAsciiCase]

theorem strTrim_strUpper_hexEncode (bs : List Nat) :
    strTrim (strUpper (hexEncode bs)) = strUpper (hexEncode bs) := by
  show String.mk (trimChars ((hexChars bs).map asciiUpper)) =
    String.mk ((hexChars bs).map asciiUpper)
  rw [trimChars_eq_self]
  intro c hc
  obtain ⟨x, hx, rfl⟩ := List.mem_map.mp hc
  exact not_whitespace_upper_of_hex x (hexChars_mem bs x hx)

theorem eqIgnoreAsciiCase_upper_hexEncode (bs : List Nat) :
    eqIgnoreAsciiCase (hexEncode bs) (strUpper (hexEncode bs)) = true := by
  show decide ((hexChars bs).map asciiLower =
    ((hexChars bs).map asciiUpper).map asciiLower) = true
  rw [map_lower_upper_of_hex _ (hexChars_mem bs), map_asciiLower_of_hex _ (hexChars_mem bs)]
  simp

theorem hexChars_ne_nil (C : DigestCrates) (a : HashAlgorithm) (content : List Nat) :
    hexChars (C.digest a content) ≠ [] := by
  intro hnil
  have hl := hexChars_length (C.digest a content)
  rw [hnil, C.digest_length] at hl
  have := rawDigestLen_pos a
  simp at hl
  omega

theorem strTrim_spaces_hexEncode (C : DigestCrates) (a : HashAlgorithm)
    (content : List Nat) :
    strTrim ("  " ++ hexEncode (C.digest a content) ++ "  ") =
      hexEncode (C.digest a content) := by
  show String.mk (trimChars (("  " ++ hexEncode (C.digest a content) ++ "  ").data)) =
    String.mk (hexChars (C.digest a content))
  rw [String.data_append, String.data_append]
  rw [show ("  " : String).data = [' ', ' '] from rfl,
    show (hexEncode (C.digest a content)).data = hexChars (C.digest a content) from rfl]
  rw [trimChars_spaces _ (fun c hc => not_whitespace_of_hex c (hexChars_mem _ c hc))
    (hexChars_ne_nil C a content)]

theorem strTrim_set_hex (bs : List Nat) (i : Nat) (c' : Char) (hc : c' ∈ hexAlphabet) :
    strTrim (String.mk ((hexChars bs).set i c')) = String.mk ((hexChars bs).set i c') := by
  show String.mk (trimChars ((hexChars bs).set i c')) = String.mk ((hexChars bs).set i c')
  rw [trimChars_eq_self]
  intro x hx
  rcases List.mem_or_eq_of_mem_set hx with h | rfl
  · exact not_whitespace_of_hex x (hexChars_mem bs x h)
  · exact not_whitespace_of_hex _ hc

theorem eqIgnoreAsciiCase_set_ne (bs : List Nat) (i : Nat) (c' : Char)
    (hi : i < (hexChars bs).length) (hc : c' ∈ hexAlphabet)
    (hne : c' ≠ (hexChars bs).get ⟨i, hi⟩) :
    eqIgnoreAsciiCase (hexEncode bs) (String.mk ((hexChars bs).set i c')) = false := by
  show decide ((hexChars bs).map asciiLower =
    ((hexChars bs).set i c').map asciiLower) = false
  rw [map_asciiLower_of_hex _ (hexChars_mem bs)]
  rw [map_asciiLower_of_hex _ ?hset]
  case hset =>
    intro x hx
    rcases List.mem_or_eq_of_mem_set hx with h | rfl
    · exact hexChars_mem bs x h
    · exact hc
  simp only [decide_eq_false_iff_not]
  intro heq
  exact hne (set_eq_self_get _ i c' hi heq.symm)

/-- C3: on a readable source, `Verifier.verify_file` trims the expected text
and compares it, ignoring ASCII case, with the computed digest, returning
true iff the normalized strings are equal; in particular, with `d` the
computed digest, verification succeeds on `d` itself, on its ASCII
uppercasing, and on `d` surrounded by spaces, and fails on `d` with one
character replaced by a different hex digit. -/
theorem C3_verify_trim_case_fold (C : DigestCrates) (h : Hasher) (fs : FS)
    (path : String) (content : List Nat) (hr : fs path = .readable content)
    (e : String) :
    ((Verifier.new h).verify_file C fs path e =
        .ok (eqIgnoreAsciiCase (computeDigestSpec C h.algorithm content) (strTrim e)) ∧
      ((Verifier.new h).verify_file C fs path e = .ok true ↔
        (computeDigestSpec C h.algorithm content).data.map asciiLower =
          (strTrim e).data.map asciiLower)) ∧
    (Verifier.new h).verify_file C fs path
      (computeDigestSpec C h.algorithm content) = .ok true ∧
    (Verifier.new h).verify_file C fs path
      (strUpper (computeDigestSpec C h.algorithm content)) = .ok true ∧
    (Verifier.new h).verify_file C fs path
      ("  " ++ computeDigestSpec C h.algorithm content ++ "  ") = .ok true ∧
    ∀ (i : Nat) (hi : i < (computeDigestSpec C h.algorithm content).data.length)
      (c' : Char), c' ∈ hexAlphabet →
      c' ≠ (computeDigestSpec C h.algorithm content).data.get ⟨i, hi⟩ →
      (Verifier.new h).verify_file C fs path
        (String.mk ((computeDigestSpec C h.algorithm content).data.set i c')) =
          .ok false := by
  have hv : ∀ e2 : String, (Verifier.new h).verify_file C fs path e2 =
      .ok (eqIgnoreAsciiCase (hexEncode (C.digest h.algorithm content)) (strTrim e2)) :=
    fun e2 => verify_file_readable C (Verifier.new h) fs path e2 content hr
  constructor
  · exact ⟨hv e, by rw [hv e]; simp [eqIgnoreAsciiCase, computeDigestSpec]⟩
  refine ⟨?_, ?_, ?_, ?_⟩
  · show (Verifier.new h).verify_file C fs path
      (hexEncode (C.digest h.algorithm content)) = .ok true
    rw [hv _, strTrim_hexEncode, eqIgnoreAsciiCase_self]
  · show (Verifier.new h).verify_file C fs path
      (strUpper (hexEncode (C.digest h.algorithm content))) = .ok true
    rw [hv _, strTrim_strUpper_hexEncode, eqIgnoreAsciiCase_upper_hexEncode]
  · show (Verifier.new h).verify_file C fs path
      ("  " ++ hexEncode (C.digest h.algorithm content) ++ "  ") = .ok true
    rw [hv _, strTrim_spaces_hexEncode C h.algorithm content, eqIgnoreAsciiCase_self]
  · intro i hi c' hc hne
    show (Verifier.new h).verify_file C fs path
      (String.mk ((hexChars (C.digest h.algorithm content)).set i c')) = .ok false
    rw [hv _, strTrim_set_hex _ _ _ hc, eqIgnoreAsciiCase_set_ne _ _ _ hi hc hne]

theorem C3_verify_trim_case_fold_witness :
    (sampleFS "a" = .readable [1]) ∧
    (Verifier.new (Hasher.new .Md5)).verify_file truncDigest sampleFS "a"
      (strUpper (computeDigestSpec truncDigest .Md5 [1])) = .ok true ∧
    (Verifier.new (Hasher.new .Md5)).verify_file truncDigest sampleFS "a"
      ("  " ++ computeDigestSpec truncDigest .Md5 [1] ++ "  ") = .ok true ∧
    (Verifier.new (Hasher.new .Md5)).verify_file truncDigest sampleFS "a"
      (String.mk ((computeDigestSpec truncDigest .Md5 [1]).data.set 0 'f')) =
        .ok false := by
  refine ⟨rfl, ?_, ?_, ?_⟩
  · exact (C3_verify_trim_case_fold truncDigest (Hasher.new .Md5) sampleFS "a" [1]
      rfl "").2.2.1
  · exact (C3_verify_trim_case_fold truncDigest (Hasher.new .Md5) sampleFS "a" [1]
      rfl "").2.2.2.1
  · exact (C3_verify_trim_case_fold truncDigest (Hasher.new .Md5) sampleFS "a" [1]
      rfl "").2.2.2.2 0 (by decide) 'f' (by decide) (by decide)

/-! ### Injectivity of the hex rendering on byte sequences -/

theorem hexDigitChar_inj (m n : Nat) (hm : m < 16) (hn : n < 16)
    (h : hexDigitChar m = hexDigitChar n) : m = n := by
  have hfin : ∀ (a b : Fin 16), hexDigitChar a = hexDigitChar b → (a : Nat) = b := by
    decide
  exact hfin ⟨m, hm⟩ ⟨n, hn⟩ h

theorem hexChars_inj (bs1 bs2 : List Nat) (h1 : ∀ b ∈ bs1, b < 256)
    (h2 : ∀ b ∈ bs2, b < 256) (he : hexChars bs1 = hexChars bs2) : bs1 = bs2 := by
  induction bs1 generalizing bs2 with
  | nil =>
    cases bs2 with
    | nil => rfl
    | cons b bs => simp [hexChars, byteHexChars] at he
  | cons a bs1 ih =>
    cases bs2 with
    | nil => simp [hexChars, byteHexChars] at he
    | cons b bs2 =>
      simp only [hexChars, byteHexChars, List.cons_append, List.nil_append,
        List.cons.injEq] at he
      obtain ⟨hh1, hh2, ht⟩ := he
      have ha := h1 a (List.mem_cons_self a bs1)
      have hb := h2 b (List.mem_cons_self b bs2)
      have e1 : a % 256 / 16 = b % 256 / 16 :=
        hexDigitChar_inj _ _ (by omega) (by omega) hh1
      have e2 : a % 16 = b % 16 := hexDigitChar_inj _ _ (by omega) (by omega) hh2
      have hab : a = b := by omega
      have htail : bs1 = bs2 := ih bs2 (fun x hx => h1 x (List.mem_cons_of_mem a hx))
        (fun x hx => h2 x (List.mem_cons_of_mem b hx)) ht
      rw [hab, htail]

/-! ### Duplicate-detection claims -/

/-- C4: every value list of the mapping returned by `find_duplicates` has at
least two members; singleton digests are dropped. -/
theorem C4_min_group_size (C : DigestCrates) (h : Hasher) (fs : FS)
    (paths : List String) (m : List (String × List String))
    (hm : h.find_duplicates C fs paths = .ok m) :
    ∀ d l, (d, l) ∈ m → 2 ≤ l.length :=
  fun d l hdl => ((mem_find_duplicates C h fs paths m hm d l).mp hdl).2

/-- C7: within each group of the mapping returned by `find_duplicates`, the
paths appear exactly as the in-input-order sublist of paths hashing to the
group's digest: discovery order is retained. -/
theorem C7_group_discovery_order (C : DigestCrates) (h : Hasher) (fs : FS)
    (paths : List String) (m : List (String × List String))
    (hm : h.find_duplicates C fs paths = .ok m) :
    ∀ d l, (d, l) ∈ m → l = groupOf C h fs paths d :=
  fun d l hdl => ((mem_find_duplicates C h fs paths m hm d l).mp hdl).1

/-- C5: `find_duplicates` never fails as a whole: it always returns a
mapping; paths whose digest computation fails are excluded from every group
(each group member is an input path that hashes to the group's digest), and
the result is the same as if the failing paths had not been in the input. -/
theorem C5_total_best_effort (C : DigestCrates) (h : Hasher) (fs : FS)
    (paths : List String) :
    (∃ m, h.find_duplicates C fs paths = .ok m) ∧
    (h.find_duplicates C fs paths =
      h.find_duplicates C fs (paths.filter (hashOk C h fs))) ∧
    (∀ m, h.find_duplicates C fs paths = .ok m →
      ∀ d l, (d, l) ∈ m → ∀ q ∈ l, q ∈ paths ∧ h.hash_file C fs q = .ok d) := by
  refine ⟨⟨_, find_duplicates_eq C h fs paths⟩,
    (find_duplicates_filter C h fs paths).symm, ?_⟩
  intro m hm d l hdl q hq
  obtain ⟨rfl, _⟩ := (mem_find_duplicates C h fs paths m hm d l).mp hdl
  exact (mem_groupOf C h fs paths d q).mp hq

/-- C2: two readable files with identical content and one with content whose
digest differs produce exactly one group, of size two, holding the first two
paths in order, and the third path is in no group; and when all hash results
are pairwise distinct, the mapping is empty. -/
theorem C2_duplicate_grouping (C : DigestCrates) (h : Hasher) (fs : FS) :
    (∀ (A B Cp : String) (cA cC : List Nat),
      fs A = .readable cA → fs B = .readable cA → fs Cp = .readable cC →
      C.digest h.algorithm cC ≠ C.digest h.algorithm cA →
      h.find_duplicates C fs [A, B, Cp] =
        .ok [(hexEncode (C.digest h.algorithm cA), [A, B])]) ∧
    (∀ paths : List String,
      paths.Pairwise (fun p q => h.hash_file C fs p ≠ h.hash_file C fs q) →
      h.find_duplicates C fs paths = .ok []) := by
  constructor
  · intro A B Cp cA cC hA hB hC hne
    have hexne : hexEncode (C.digest h.algorithm cC) ≠
        hexEncode (C.digest h.algorithm cA) := by
      intro he
      exact hne (hexChars_inj _ _ (C.digest_lt _ _) (C.digest_lt _ _)
        (congrArg String.data he))
    have hA' := hash_file_readable C h fs A cA hA
    have hB' := hash_file_readable C h fs B cA hB
    have hC' := hash_file_readable C h fs Cp cC hC
    rw [find_duplicates_eq]
    have hres : hashResults C h fs [A, B, Cp] =
        [(hexEncode (C.digest h.algorithm cA), A),
         (hexEncode (C.digest h.algorithm cA), B),
         (hexEncode (C.digest h.algorithm cC), Cp)] := by
      simp [hashResults, List.filterMap_cons, hA', hB', hC']
    rw [hres]
    simp [groupFold, insertPath, Ne.symm hexne, List.filter]
  · intro paths hpw
    rw [find_duplicates_eq]
    refine congrArg Except.ok ?_
    rw [List.eq_nil_iff_forall_not_mem]
    rintro ⟨d, l⟩ hmem
    obtain ⟨hl, hlen⟩ :=
      (mem_find_duplicates C h fs paths _ (find_duplicates_eq C h fs paths) d l).mp hmem
    have hle := groupOf_length_le_one C h fs paths hpw d
    rw [← hl] at hle
    omega

/-- C10: a readable path occurring `k ≥ 2` times in the input is inserted
`k` times into its digest's group, so a single file listed repeatedly is
reported as a duplicate of itself: group sizes count input occurrences. -/
theorem C10_repeated_path (C : DigestCrates) (h : Hasher) (fs : FS)
    (paths : List String) (p d : String) (hp : h.hash_file C fs p = .ok d)
    (hk : 2 ≤ paths.count p) (m : List (String × List String))
    (hm : h.find_duplicates C fs paths = .ok m) :
    ∃ l, (d, l) ∈ m ∧ l.count p = paths.count p ∧ 2 ≤ l.length := by
  have hcnt := count_groupOf C h fs paths p d hp
  have hle := List.count_le_length p (groupOf C h fs paths d)
  refine ⟨groupOf C h fs paths d, ?_, hcnt, by omega⟩
  exact (mem_find_duplicates C h fs paths m hm d _).mpr ⟨rfl, by omega⟩

/-! ### Concrete evaluations of the duplicate detector -/

theorem sample_hash_a : (Hasher.new .Md5).hash_file truncDigest sampleFS "a" =
    .ok (hexEncode (truncDigest.digest .Md5 [1])) :=
  hash_file_readable truncDigest (Hasher.new .Md5) sampleFS "a" [1] rfl

theorem sample_hash_b : (Hasher.new .Md5).hash_file truncDigest sampleFS "b" =
    .ok (hexEncode (truncDigest.digest .Md5 [1])) :=
  hash_file_readable truncDigest (Hasher.new .Md5) sampleFS "b" [1] rfl

theorem sample_hash_c : (Hasher.new .Md5).hash_file truncDigest sampleFS "c" =
    .ok (hexEncode (truncDigest.digest .Md5 [2])) :=
  hash_file_readable truncDigest (Hasher.new .Md5) sampleFS "c" [2] rfl

theorem sample_hash_x : (Hasher.new .Md5).hash_file truncDigest sampleFS "x" =
    .error .openFailed :=
  hash_file_openError truncDigest (Hasher.new .Md5) sampleFS "x" rfl

theorem sample_find_abc :
    (Hasher.new .Md5).find_duplicates truncDigest sampleFS ["a", "b", "c"] =
      .ok [(hexEncode (truncDigest.digest .Md5 [1]), ["a", "b"])] := by
  rw [find_duplicates_eq]
  have hres : hashResults truncDigest (Hasher.new .Md5) sampleFS ["a", "b", "c"] =
      [(hexEncode (truncDigest.digest .Md5 [1]), "a"),
       (hexEncode (truncDigest.digest .Md5 [1]), "b"),
       (hexEncode (truncDigest.digest .Md5 [2]), "c")] := by
    simp [hashResults, List.filterMap_cons, sample_hash_a, sample_hash_b, sample_hash_c]
  rw [hres]
  decide

theorem sample_find_axb :
    (Hasher.new .Md5).find_duplicates truncDigest sampleFS ["a", "x", "b"] =
      .ok [(hexEncode (truncDigest.digest .Md5 [1]), ["a", "b"])] := by
  rw [find_duplicates_eq]
  have hres : hashResults truncDigest (Hasher.new .Md5) sampleFS ["a", "x", "b"] =
      [(hexEncode (truncDigest.digest .Md5 [1]), "a"),
       (hexEncode (truncDigest.digest .Md5 [1]), "b")] := by
    simp [hashResults, List.filterMap_cons, sample_hash_a, sample_hash_x, sample_hash_b]
  rw [hres]
  decide

theorem sample_find_aa :
    (Hasher.new .Md5).find_duplicates truncDigest sampleFS ["a", "a"] =
      .ok [(hexEncode (truncDigest.digest .Md5 [1]), ["a", "a"])] := by
  rw [find_duplicates_eq]
  have hres : hashResults truncDigest (Hasher.new .Md5) sampleFS ["a", "a"] =
      [(hexEncode (truncDigest.digest .Md5 [1]), "a"),
       (hexEncode (truncDigest.digest .Md5 [1]), "a")] := by
    simp [hashResults, List.filterMap_cons, sample_hash_a]
  rw [hres]
  decide

theorem C4_min_group_size_witness :
    (Hasher.new .Md5).find_duplicates truncDigest sampleFS ["a", "b", "c"] =
      .ok [(hexEncode (truncDigest.digest .Md5 [1]), ["a", "b"])] ∧
    2 ≤ (["a", "b"] : List String).length :=
  ⟨sample_find_abc,
    C4_min_group_size truncDigest (Hasher.new .Md5) sampleFS ["a", "b", "c"]
      [(hexEncode (truncDigest.digest .Md5 [1]), ["a", "b"])] sample_find_abc
      (hexEncode (truncDigest.digest .Md5 [1])) ["a", "b"] (by decide)⟩

theorem C7_group_discovery_order_witness :
    (Hasher.new .Md5).find_duplicates truncDigest sampleFS ["a", "b", "c"] =
      .ok [(hexEncode (truncDigest.digest .Md5 [1]), ["a", "b"])] ∧
    (["a", "b"] : List String) =
      groupOf truncDigest (Hasher.new .Md5) sampleFS ["a", "b", "c"]
        (hexEncode (truncDigest.digest .Md5 [1])) :=
  ⟨sample_find_abc,
    C7_group_discovery_order truncDigest (Hasher.new .Md5) sampleFS ["a", "b", "c"]
      [(hexEncode (truncDigest.digest .Md5 [1]), ["a", "b"])] sample_find_abc
      (hexEncode (truncDigest.digest .Md5 [1])) ["a", "b"] (by decide)⟩

theorem C5_total_best_effort_witness :
    ((Hasher.new .Md5).find_duplicates truncDigest sampleFS ["a", "x", "b"] =
      (Hasher.new .Md5).find_duplicates truncDigest sampleFS
        (["a", "x", "b"].filter (hashOk truncDigest (Hasher.new .Md5) sampleFS))) ∧
    (Hasher.new .Md5).find_duplicates truncDigest sampleFS ["a", "x", "b"] =
      .ok [(hexEncode (truncDigest.digest .Md5 [1]), ["a", "b"])] ∧
    ("a" ∈ (["a", "x", "b"] : List String) ∧
      (Hasher.new .Md5).hash_file truncDigest sampleFS "a" =
        .ok (hexEncode (truncDigest.digest .Md5 [1]))) :=
  ⟨(C5_total_best_effort truncDigest (Hasher.new .Md5) sampleFS ["a", "x", "b"]).2.1,
    sample_find_axb,
    (C5_total_best_effort truncDigest (Hasher.new .Md5) sampleFS ["a", "x", "b"]).2.2
      [(hexEncode (truncDigest.digest .Md5 [1]), ["a", "b"])] sample_find_axb
      (hexEncode (truncDigest.digest .Md5 [1])) ["a", "b"] (by decide) "a" (by decide)⟩

theorem C2_duplicate_grouping_witness :
    (sampleFS "a" = .readable [1]) ∧ (sampleFS "b" = .readable [1]) ∧
    (sampleFS "c" = .readable [2]) ∧
    (truncDigest.digest .Md5 [2] ≠ truncDigest.digest .Md5 [1]) ∧
    (Hasher.new .Md5).find_duplicates truncDigest sampleFS ["a", "b", "c"] =
      .ok [(hexEncode (truncDigest.digest .Md5 [1]), ["a", "b"])] ∧
    (Hasher.new .Md5).find_duplicates truncDigest sampleFS ["a", "c"] = .ok [] := by
  refine ⟨rfl, rfl, rfl, by decide, ?_, ?_⟩
  · exact (C2_duplicate_grouping truncDigest (Hasher.new .Md5) sampleFS).1
      "a" "b" "c" [1] [2] rfl rfl rfl (by decide)
  · apply (C2_duplicate_grouping truncDigest (Hasher.new .Md5) sampleFS).2 ["a", "c"]
    refine List.Pairwise.cons ?_ (List.pairwise_singleton _ _)
    intro q hq
    rw [List.mem_singleton] at hq
    subst hq
    rw [sample_hash_a, sample_hash_c]
    intro hcontra
    exact (by decide : hexEncode (truncDigest.digest .Md5 [1]) ≠
      hexEncode (truncDigest.digest .Md5 [2])) (Except.ok.inj hcontra)

theorem C10_repeated_path_witness :
    ((Hasher.new .Md5).hash_file truncDigest sampleFS "a" =
      .ok (hexEncode (truncDigest.digest .Md5 [1]))) ∧
    2 ≤ (["a", "a"] : List String).count "a" ∧
    (Hasher.new .Md5).find_duplicates truncDigest sampleFS ["a", "a"] =
      .ok [(hexEncode (truncDigest.digest .Md5 [1]), ["a", "a"])] ∧
    ∃ l, (hexEncode (truncDigest.digest .Md5 [1]), l) ∈
        [(hexEncode (truncDigest.digest .Md5 [1]), ["a", "a"])] ∧
      l.count "a" = (["a", "a"] : List String).count "a" ∧ 2 ≤ l.length :=
  ⟨sample_hash_a, by decide, sample_find_aa,
    C10_repeated_path truncDigest (Hasher.new .Md5) sampleFS ["a", "a"] "a"
      (hexEncode (truncDigest.digest .Md5 [1])) sample_hash_a (by decide)
      [(hexEncode (truncDigest.digest .Md5 [1]), ["a", "a"])] sample_find_aa⟩
